import Mathlib

/-!
Verification of the MTP go-sdk introspection logic (`introspect.go`, `mtp.go`,
`types.go`).  The Cobra command tree is modelled as a rose tree; pflag flags
are modelled by their observable fields (name, value-type string, textual
default, usage, hidden bit, string-keyed annotations).  All functions below
are direct translations of the Go source.
-/

set_option maxHeartbeats 1000000

/-- Value of a flag annotation entry: Go `map[string][]string`, as an
association list. -/
abbrev AnnMap := List (String × List String)

/-- Observable fields of a `pflag.Flag`. -/
structure FlagData where
  name : String
  valueType : String
  defValue : String
  usage : String := ""
  hidden : Bool := false
  annotations : AnnMap := []
deriving DecidableEq

/-- A Cobra command node: `Use`, `Short`, `Long`, `Version`, `Hidden`,
whether it has runnable behavior (`Run`/`RunE`), its flags, and its
subcommands. -/
inductive Command where
  | mk (use short long version : String) (hidden : Bool) (hasRun : Bool)
      (flags : List FlagData) (subs : List Command) : Command

def Command.use : Command → String
  | .mk u _ _ _ _ _ _ _ => u

def Command.short : Command → String
  | .mk _ s _ _ _ _ _ _ => s

def Command.long : Command → String
  | .mk _ _ l _ _ _ _ _ => l

def Command.version : Command → String
  | .mk _ _ _ v _ _ _ _ => v

def Command.hidden : Command → Bool
  | .mk _ _ _ _ h _ _ _ => h

def Command.hasRun : Command → Bool
  | .mk _ _ _ _ _ r _ _ => r

def Command.flags : Command → List FlagData
  | .mk _ _ _ _ _ _ fl _ => fl

def Command.subs : Command → List Command
  | .mk _ _ _ _ _ _ _ s => s

/-- Cobra `Command.Name()`: the `Use` string up to the first space. -/
def Command.name (c : Command) : String :=
  String.mk (c.use.toList.takeWhile (fun ch => ch ≠ ' '))

/-- Replace the flag list of a command, keeping every other field. -/
def Command.withFlags : Command → List FlagData → Command
  | .mk u s l v h r _ sub, fl => .mk u s l v h r fl sub

/-- Replace the subcommand list of a command, keeping every other field. -/
def Command.withSubs : Command → List Command → Command
  | .mk u s l v h r fl _, sub => .mk u s l v h r fl sub

/-- A Go value that `flagDefault` can return (it returns `true` or a string,
or `nil` which we model with `Option`). -/
inductive GoValue where
  | boolVal (b : Bool)
  | strVal (s : String)
deriving DecidableEq

/-- `ArgDescriptor` from types.go. -/
structure ArgDescriptor where
  name : String
  type : String
  description : String := ""
  required : Bool := false
  default : Option GoValue := none
  values : List String := []
deriving DecidableEq

/-- `IODescriptor` from types.go (the free-form schema map is modelled as an
association list of opaque strings; it is only passed through verbatim). -/
structure IODescriptor where
  contentType : String := ""
  description : String := ""
  schema : List (String × String) := []
deriving DecidableEq

/-- `Example` from types.go. -/
structure Example where
  description : String := ""
  command : String := ""
  output : String := ""
deriving DecidableEq

/-- `CommandAuth` from types.go. -/
structure CommandAuth where
  required : Bool := false
  scopes : List String := []
deriving DecidableEq

/-- `AuthProvider` from types.go. -/
structure AuthProvider where
  id : String := ""
  type : String := ""
  displayName : String := ""
  authorizationURL : String := ""
  tokenURL : String := ""
  scopes : List String := []
  clientID : String := ""
  registrationURL : String := ""
  instructions : String := ""
deriving DecidableEq

/-- `AuthConfig` from types.go. -/
structure AuthConfig where
  required : Bool := false
  envVar : String := ""
  providers : List AuthProvider := []
deriving DecidableEq

/-- `CommandDescriptor` from types.go. -/
structure CommandDescriptor where
  name : String
  description : String := ""
  args : List ArgDescriptor := []
  stdin : Option IODescriptor := none
  stdout : Option IODescriptor := none
  examples : List Example := []
  auth : Option CommandAuth := none
deriving DecidableEq

/-- `CommandAnnotation` from types.go (caller-supplied per-command metadata;
the `ArgTypes` map is an association list). -/
structure CommandAnnot where
  args : List ArgDescriptor := []
  argTypes : List (String × String) := []
  stdin : Option IODescriptor := none
  stdout : Option IODescriptor := none
  examples : List Example := []
  auth : Option CommandAuth := none
deriving DecidableEq

/-- `DescribeOptions` from types.go. -/
structure DescribeOptions where
  commands : List (String × CommandAnnot) := []
  auth : Option AuthConfig := none

/-- `ToolSchema` from types.go. -/
structure ToolSchema where
  specVersion : String
  name : String
  version : String := ""
  description : String := ""
  commands : List CommandDescriptor := []
  auth : Option AuthConfig := none

/-- Association-list lookup for flag annotations (Go map indexing with
`ok` bit). -/
def lookupAnn : AnnMap → String → Option (List String)
  | [], _ => none
  | (k, v) :: rest, n => if k = n then some v else lookupAnn rest n

/-- Association-list lookup, string-valued (for `CommandAnnotation.ArgTypes`). -/
def lookupStr : List (String × String) → String → Option String
  | [], _ => none
  | (k, v) :: rest, n => if k = n then some v else lookupStr rest n

/-- Association-list lookup for `DescribeOptions.Commands`. -/
def lookupCA : List (String × CommandAnnot) → String → Option CommandAnnot
  | [], _ => none
  | (k, v) :: rest, n => if k = n then some v else lookupCA rest n

/-- `pflagTypeToMTP` from introspect.go: maps pflag type strings to MTP type
strings. -/
def pflagTypeToMTP (f : FlagData) : String :=
  match f.valueType with
  | "bool" => "boolean"
  | "int" | "int8" | "int16" | "int32" | "int64"
  | "uint" | "uint8" | "uint16" | "uint32" | "uint64" => "integer"
  | "float32" | "float64" => "number"
  | "stringSlice" | "intSlice" | "stringArray" | "uintSlice" => "array"
  | _ => "string"

/-- `flagDefault` from introspect.go: a typed default value for a flag, or
`none` if the default is the zero value for its type. -/
def flagDefault (f : FlagData) : Option GoValue :=
  match f.valueType with
  | "bool" => if f.defValue = "true" then some (.boolVal true) else none
  | "int" | "int8" | "int16" | "int32" | "int64"
  | "uint" | "uint8" | "uint16" | "uint32" | "uint64" =>
      if f.defValue = "" ∨ f.defValue = "0" then none else some (.strVal f.defValue)
  | "float32" | "float64" =>
      if f.defValue = "" ∨ f.defValue = "0" then none else some (.strVal f.defValue)
  | _ =>
      if f.defValue = "" ∨ f.defValue = "[]" then none else some (.strVal f.defValue)

/-- `skippedFlags` from introspect.go: flags that never appear in output. -/
def skippedFlags (n : String) : Bool :=
  n = "help" || n = "mtp-describe" || n = "version"

/-- Cobra's annotation key marking a required flag. -/
def requiredFlagKey : String := "cobra_annotation_bash_completion_one_required_flag"

/-- Body of the `VisitAll` closure in `extractFlags`: the `ArgDescriptor`
built for one (non-skipped) flag. -/
def flagDesc (ann : Option CommandAnnot) (f : FlagData) : ArgDescriptor :=
  let typ := pflagTypeToMTP f
  let typ :=
    match ann with
    | some a =>
        match lookupStr a.argTypes f.name with
        | some override => override
        | none => typ
    | none => typ
  let arg : ArgDescriptor := { name := "--" ++ f.name, type := typ, description := f.usage }
  let arg :=
    match lookupAnn f.annotations requiredFlagKey with
    | some l => if l.isEmpty then arg else { arg with required := true }
    | none => arg
  let arg :=
    match flagDefault f with
    | some d => { arg with default := some d }
    | none => arg
  match lookupAnn f.annotations "values" with
  | some vs => if vs.isEmpty then arg else { arg with type := "enum", values := vs }
  | none => arg

/-- `extractFlags` from introspect.go: builds ArgDescriptors from a command's
flags, visiting them in order and skipping reserved and hidden ones. -/
def extractFlags (cmd : Command) (ann : Option CommandAnnot) : List ArgDescriptor :=
  cmd.flags.foldl
    (fun acc f => if skippedFlags f.name || f.hidden then acc else acc ++ [flagDesc ann f]) []

/-- Split a character list at every character satisfying `p`, keeping empty
segments (the semantics of `String.split`). -/
def splitChars (p : Char → Bool) : List Char → List (List Char)
  | [] => [[]]
  | ch :: cs =>
      if p ch then [] :: splitChars p cs
      else
        match splitChars p cs with
        | [] => [[ch]]
        | t :: ts => (ch :: t) :: ts

/-- Go `strings.Fields`: whitespace-separated tokens, no empties. -/
def goFields (s : String) : List String :=
  ((splitChars Char.isWhitespace s.toList).map String.mk).filter (fun t => t ≠ "")

/-- Go `strings.HasPrefix`. -/
def goHasPrefix (s pre : String) : Bool :=
  pre.toList.isPrefixOf s.toList

/-- Go `strings.HasSuffix`. -/
def goHasSuffix (s suf : String) : Bool :=
  suf.toList.isSuffixOf s.toList

/-- Go `strings.TrimSpace`. -/
def goTrimSpace (s : String) : String :=
  let l := s.toList.dropWhile Char.isWhitespace
  String.mk ((l.reverse.dropWhile Char.isWhitespace).reverse)

/-- Go `strings.Trim`: remove all leading and trailing characters of the
cutset. -/
def goTrim (s : String) (cut : List Char) : String :=
  let l := s.toList.dropWhile (fun ch => cut.contains ch)
  String.mk ((l.reverse.dropWhile (fun ch => cut.contains ch)).reverse)

/-- `parseUseArgs` from introspect.go: positional arg descriptors from a
Cobra `Use` string, convention `command <required> [optional]`. -/
def parseUseArgs (use : String) : List ArgDescriptor :=
  let parts := goFields use
  if parts.length ≤ 1 then []
  else
    (parts.drop 1).foldl
      (fun acc part =>
        if goHasPrefix part "<" && goHasSuffix part ">" then
          acc ++ [{ name := goTrim part ['<', '>'], type := "string", required := true }]
        else if goHasPrefix part "[" && goHasSuffix part "]" then
          acc ++ [{ name := goTrim part ['[', ']'], type := "string" }]
        else acc) []

/-- `extractCommand` from introspect.go: builds a CommandDescriptor from a
single command. -/
def extractCommand (cmd : Command) (nm : String) (ann : Option CommandAnnot) :
    CommandDescriptor :=
  let desc0 := goTrimSpace cmd.short
  let desc := if desc0 = "" then goTrimSpace cmd.long else desc0
  let posArgs :=
    match ann with
    | some a => if a.args.length > 0 then a.args else parseUseArgs cmd.use
    | none => parseUseArgs cmd.use
  { name := nm
    description := desc
    args := posArgs ++ extractFlags cmd ann
    stdin := match ann with | some a => a.stdin | none => none
    stdout := match ann with | some a => a.stdout | none => none
    examples := match ann with | some a => a.examples | none => []
    auth := match ann with | some a => a.auth | none => none }

/-- `skippedCommands` from introspect.go: auto-generated commands to exclude. -/
def skippedCommands (n : String) : Bool :=
  n = "help" || n = "completion"

/-- `visibleSubcommands` from introspect.go: non-hidden, non-skipped
subcommands. -/
def visibleSubcommands (cmd : Command) : List Command :=
  cmd.subs.filter (fun sub => !(sub.hidden || skippedCommands sub.name))

/-- Annotation lookup done inside `walkCommands`
(`opts.Commands[name]` guarded by nil checks). -/
def annFor (opts : Option DescribeOptions) (nm : String) : Option CommandAnnot :=
  match opts with
  | some o => lookupCA o.commands nm
  | none => none

theorem sizeOf_lt_of_mem_subs {sub c : Command} (h : sub ∈ c.subs) :
    sizeOf sub < sizeOf c := by
  cases c with
  | mk u s l v hd r fl subs =>
    simp only [Command.subs] at h
    have := List.sizeOf_lt_of_mem h
    simp only [Command.mk.sizeOf_spec]
    omega

/-- `walkCommands` from introspect.go: recursively extracts
CommandDescriptors from a command tree. -/
def walkCommands (cmd : Command) (path : String) (opts : Option DescribeOptions) :
    List CommandDescriptor :=
  if (visibleSubcommands cmd).isEmpty then
    [extractCommand cmd (if path = "" then "_root" else path)
      (annFor opts (if path = "" then "_root" else path))]
  else
    (visibleSubcommands cmd).attach.flatMap fun sub =>
      walkCommands sub.1 (if path = "" then sub.1.name else path ++ " " ++ sub.1.name) opts
termination_by sizeOf cmd
decreasing_by
  exact sizeOf_lt_of_mem_subs (List.mem_filter.mp sub.2).1

/-- `MTPSpecVersion` from mtp.go. -/
def MTPSpecVersion : String := "2026-02-07"

/-- `Describe` from mtp.go: extracts a ToolSchema from a command tree. -/
def Describe (root : Command) (opts : Option DescribeOptions) : ToolSchema :=
  let desc0 := goTrimSpace root.short
  let desc := if desc0 = "" then goTrimSpace root.long else desc0
  { specVersion := MTPSpecVersion
    name := root.name
    version := root.version
    description := desc
    commands := walkCommands root "" opts
    auth := match opts with | some o => o.auth | none => none }

/-- `cmd.Flags().Lookup(name)` — first flag with the given name. -/
def lookupFlag : List FlagData → String → Option FlagData
  | [], _ => none
  | f :: rest, n => if f.name = n then some f else lookupFlag rest n

/-- Go map store `f.Annotations["values"] = values` on an association list. -/
def setAnn : AnnMap → String → List String → AnnMap
  | [], k, v => [(k, v)]
  | (k0, v0) :: rest, k, v =>
      if k0 = k then (k, v) :: rest else (k0, v0) :: setAnn rest k v

/-- In-place update performed by `EnumValues`: set the `values` annotation on
the (first) flag with the given name. -/
def setFlagValues : List FlagData → String → List String → List FlagData
  | [], _, _ => []
  | f :: rest, n, vs =>
      if f.name = n then { f with annotations := setAnn f.annotations "values" vs } :: rest
      else f :: setFlagValues rest n vs

/-- `EnumValues` from mtp.go: annotates a flag with allowed enum values; a
no-op when the flag does not exist. -/
def EnumValues (cmd : Command) (flagName : String) (values : List String) : Command :=
  match lookupFlag cmd.flags flagName with
  | none => cmd
  | some _ => cmd.withFlags (setFlagValues cmd.flags flagName values)

/-- Reachability through visible children only, accumulating the walk path
exactly as `walkCommands` does. -/
inductive VisiblePath : Command → String → Command → String → Prop where
  | here (c : Command) (p : String) : VisiblePath c p c p
  | child {c : Command} {p : String} {s d : Command} {q : String} :
      s ∈ visibleSubcommands c →
      VisiblePath s (if p = "" then s.name else p ++ " " ++ s.name) d q →
      VisiblePath c p d q

/-- Filter used by claim C3/C5 statements: the integer value-kind strings of
`pflagTypeToMTP`. -/
def isIntKind (t : String) : Bool :=
  t = "int" || t = "int8" || t = "int16" || t = "int32" || t = "int64" ||
  t = "uint" || t = "uint8" || t = "uint16" || t = "uint32" || t = "uint64"

/-- Float value-kind strings of `pflagTypeToMTP`. -/
def isFloatKind (t : String) : Bool :=
  t = "float32" || t = "float64"

/-- Slice/array value-kind strings handled by `pflagTypeToMTP`. -/
def isSliceKind (t : String) : Bool :=
  t = "stringSlice" || t = "intSlice" || t = "stringArray" || t = "uintSlice"

/-- The filter kept by `extractFlags` (neither reserved-named nor hidden). -/
def keepFlag (f : FlagData) : Bool :=
  !(skippedFlags f.name || f.hidden)

/-- The filter kept by `visibleSubcommands`. -/
def keepCmd (sub : Command) : Bool :=
  !(sub.hidden || skippedCommands sub.name)

/-- Removes every hidden or reserved-named subcommand (recursively) and every
hidden or reserved-named flag from a command tree.  Used to state that such
nodes and flags never contribute to the output. -/
def prune : Command → Command
  | .mk u s l v h r fl subs =>
      .mk u s l v h r (fl.filter keepFlag)
        ((subs.filter keepCmd).attach.map fun sc => prune sc.1)
termination_by c => sizeOf c
decreasing_by
  have := List.sizeOf_lt_of_mem (List.mem_filter.mp sc.2).1
  simp only [Command.mk.sizeOf_spec]
  omega

/-- Type chosen by `extractFlags` before the enum-values override: the
per-command `ArgTypes` override when present, else the inferred tag. -/
def baseType (ann : Option CommandAnnot) (f : FlagData) : String :=
  match ann with
  | some a =>
      match lookupStr a.argTypes f.name with
      | some override => override
      | none => pflagTypeToMTP f
  | none => pflagTypeToMTP f

/-! ### Concrete sample inputs used by witnesses and counterexamples -/

def fBoolTrueW : FlagData := { name := "verbose", valueType := "bool", defValue := "true" }

def fBoolFalseW : FlagData := { name := "quiet", valueType := "bool", defValue := "false" }

def fIntZeroW : FlagData := { name := "port", valueType := "int", defValue := "0" }

def fIntW : FlagData := { name := "port", valueType := "int", defValue := "8080" }

def fFloatW : FlagData := { name := "ratio", valueType := "float64", defValue := "1.5" }

def fSliceW : FlagData := { name := "tags", valueType := "stringSlice", defValue := "[]" }

def fOtherW : FlagData := { name := "timeout", valueType := "duration", defValue := "5s" }

def fFmtW : FlagData := { name := "format", valueType := "string", defValue := "json" }

/-- `fFmtW` after `EnumValues` attaches `["json", "csv"]`. -/
def fEnumW : FlagData :=
  { name := "format", valueType := "string", defValue := "json",
    annotations := [("values", ["json", "csv"])] }

def cEnumCmd : Command := .mk "fmt" "" "" "" false true [fFmtW] []

def cGoodEnum : Command := .mk "convert" "" "" "" false true [fEnumW] []

/-- Command with a plain string flag, used by the C4 counterexample. -/
def cBad : Command := .mk "serve" "" "" "" false true
  [{ name := "mode", valueType := "string", defValue := "" }] []

/-- Annotation whose `ArgTypes` override assigns type `enum` to `mode`. -/
def annBad : CommandAnnot := { argTypes := [("mode", "enum")] }

/-- A root command marked hidden, with no subcommands. -/
def cHiddenRoot : Command := .mk "secrettool" "" "" "" true true [] []

def cBaseW : Command := .mk "tool" "" "" "" false true [] []

/-- A user-defined (non-hidden, runnable) subcommand named `help`. -/
def subHelpW : Command := .mk "help" "User help" "" "" false true
  [{ name := "topic", valueType := "string", defValue := "" }] []

/-! ### Basic lemmas about the embedding -/

theorem attach_flatMap {α β : Type _} (l : List α) (f : α → List β) :
    (l.attach.flatMap fun s => f s.1) = l.flatMap f := by
  conv_rhs => rw [← List.attach_map_subtype_val l]
  rw [List.flatMap_map]

/-- Unconditional unfolding of `walkCommands` without `attach`. -/
theorem walkCommands_eq (c : Command) (p : String) (o : Option DescribeOptions) :
    walkCommands c p o =
      if (visibleSubcommands c).isEmpty then
        [extractCommand c (if p = "" then "_root" else p)
          (annFor o (if p = "" then "_root" else p))]
      else
        (visibleSubcommands c).flatMap fun sub =>
          walkCommands sub (if p = "" then sub.name else p ++ " " ++ sub.name) o := by
  rw [walkCommands]
  split
  · rfl
  · exact attach_flatMap (visibleSubcommands c)
      (fun sub => walkCommands sub (if p = "" then sub.name else p ++ " " ++ sub.name) o)

theorem extractFlags_foldl (ann : Option CommandAnnot) (l : List FlagData) :
    ∀ acc : List ArgDescriptor,
      l.foldl
        (fun acc f => if skippedFlags f.name || f.hidden then acc else acc ++ [flagDesc ann f])
        acc
        = acc ++ (l.filter keepFlag).map (flagDesc ann) := by
  induction l with
  | nil => intro acc; simp
  | cons f rest ih =>
    intro acc
    rw [List.foldl_cons]
    by_cases h : (skippedFlags f.name || f.hidden) = true
    · rw [if_pos h, ih acc, List.filter_cons]
      have hk : keepFlag f = false := by simp [keepFlag, h]
      rw [hk]
      simp
    · rw [if_neg h, ih (acc ++ [flagDesc ann f]), List.filter_cons]
      have hb : (skippedFlags f.name || f.hidden) = false := by
        cases hx : (skippedFlags f.name || f.hidden)
        · rfl
        · exact absurd hx h
      have hk : keepFlag f = true := by simp [keepFlag, hb]
      rw [hk]
      simp

/-- `extractFlags` is the in-order image of the visible flags. -/
theorem extractFlags_eq (cmd : Command) (ann : Option CommandAnnot) :
    extractFlags cmd ann = (cmd.flags.filter keepFlag).map (flagDesc ann) := by
  simpa [extractFlags] using extractFlags_foldl ann cmd.flags []

/-- Unconditional unfolding of `prune` without `attach`. -/
theorem prune_def (c : Command) :
    prune c = (c.withFlags (c.flags.filter keepFlag)).withSubs
      ((c.subs.filter keepCmd).map prune) := by
  cases c with
  | mk u s l v h r fl subs =>
    rw [prune]
    simp [Command.withFlags, Command.withSubs, Command.flags, Command.subs,
      List.attach_map_val]

theorem visible_eq_filter (c : Command) :
    visibleSubcommands c = c.subs.filter keepCmd := rfl

theorem prune_use (c : Command) : (prune c).use = c.use := by
  cases c; rw [prune]; rfl

theorem prune_short (c : Command) : (prune c).short = c.short := by
  cases c; rw [prune]; rfl

theorem prune_long (c : Command) : (prune c).long = c.long := by
  cases c; rw [prune]; rfl

theorem prune_hidden (c : Command) : (prune c).hidden = c.hidden := by
  cases c; rw [prune]; rfl

theorem prune_version (c : Command) : (prune c).version = c.version := by
  cases c; rw [prune]; rfl

theorem prune_name (c : Command) : (prune c).name = c.name := by
  simp [Command.name, prune_use]

theorem prune_flags (c : Command) : (prune c).flags = c.flags.filter keepFlag := by
  cases c; rw [prune]; rfl

theorem prune_subs (c : Command) : (prune c).subs = (c.subs.filter keepCmd).map prune := by
  cases c with
  | mk u s l v h r fl subs =>
    rw [prune]
    simp [Command.subs, List.attach_map_val]

theorem keepCmd_prune (x : Command) : keepCmd (prune x) = keepCmd x := by
  simp [keepCmd, prune_hidden, prune_name]

theorem visible_prune (c : Command) :
    visibleSubcommands (prune c) = (visibleSubcommands c).map prune := by
  rw [visible_eq_filter, visible_eq_filter, prune_subs, List.filter_map]
  have h1 : (c.subs.filter keepCmd).filter (keepCmd ∘ prune)
      = (c.subs.filter keepCmd).filter keepCmd := by
    apply List.filter_congr
    intro x _
    simpa using keepCmd_prune x
  rw [h1, List.filter_filter]
  exact congrArg (List.map prune)
    (List.filter_congr (fun x _ => Bool.and_self (keepCmd x)))

theorem extractFlags_prune (c : Command) (ann : Option CommandAnnot) :
    extractFlags (prune c) ann = extractFlags c ann := by
  rw [extractFlags_eq, extractFlags_eq, prune_flags, List.filter_filter]
  exact congrArg (List.map (flagDesc ann))
    (List.filter_congr (fun x _ => Bool.and_self (keepFlag x)))

theorem extractCommand_prune (c : Command) (nm : String) (ann : Option CommandAnnot) :
    extractCommand (prune c) nm ann = extractCommand c nm ann := by
  simp [extractCommand, prune_use, prune_short, prune_long, extractFlags_prune]

theorem command_sizeOf_pos (c : Command) : 1 ≤ sizeOf c := by
  cases c; simp [Command.mk.sizeOf_spec]; omega

theorem walk_prune_aux :
    ∀ (n : Nat) (c : Command), sizeOf c ≤ n →
      ∀ (p : String) (o : Option DescribeOptions),
        walkCommands (prune c) p o = walkCommands c p o := by
  intro n
  induction n with
  | zero =>
    intro c hc
    exact absurd hc (by have := command_sizeOf_pos c; omega)
  | succ n ih =>
    intro c hc p o
    rw [walkCommands_eq, walkCommands_eq, visible_prune]
    cases hvis : visibleSubcommands c with
    | nil =>
      simp [extractCommand_prune]
    | cons s0 rest =>
      simp only [List.map_cons, List.isEmpty_cons, Bool.false_eq_true, if_false]
      rw [← List.map_cons, List.flatMap_map]
      apply List.flatMap_congr
      intro x hx
      rw [prune_name]
      have hmem : x ∈ c.subs := by
        have hx' : x ∈ visibleSubcommands c := by rw [hvis]; exact hx
        exact (List.mem_filter.mp hx').1
      have hlt : sizeOf x < sizeOf c := sizeOf_lt_of_mem_subs hmem
      exact ih x (by omega) _ o

/-- Helper used by claims C6 and C10: pruning hidden and reserved-named
subcommands and flags does not change the walker's output. -/
theorem walk_prune (c : Command) (p : String) (o : Option DescribeOptions) :
    walkCommands (prune c) p o = walkCommands c p o :=
  walk_prune_aux (sizeOf c) c le_rfl p o

theorem walk_mem_fwd :
    ∀ (n : Nat) (c : Command), sizeOf c ≤ n →
      ∀ (p : String) (o : Option DescribeOptions) (d : CommandDescriptor),
        d ∈ walkCommands c p o →
        ∃ node q, VisiblePath c p node q ∧ visibleSubcommands node = [] ∧
          d = extractCommand node (if q = "" then "_root" else q)
                (annFor o (if q = "" then "_root" else q)) := by
  intro n
  induction n with
  | zero =>
    intro c hc
    exact absurd hc (by have := command_sizeOf_pos c; omega)
  | succ n ih =>
    intro c hc p o d hd
    rw [walkCommands_eq] at hd
    by_cases hvis : visibleSubcommands c = []
    · rw [hvis] at hd
      simp only [List.isEmpty_nil, if_true, List.mem_singleton] at hd
      exact ⟨c, p, .here c p, hvis, hd⟩
    · have hne : (visibleSubcommands c).isEmpty = false := by
        simp [List.isEmpty_iff, hvis]
      rw [hne] at hd
      simp only [Bool.false_eq_true, if_false, List.mem_flatMap] at hd
      obtain ⟨s, hs, hds⟩ := hd
      have hmem : s ∈ c.subs := (List.mem_filter.mp hs).1
      have hlt := sizeOf_lt_of_mem_subs hmem
      obtain ⟨node, q, hpath, hleaf, hdesc⟩ := ih s (by omega) _ o d hds
      exact ⟨node, q, .child hs hpath, hleaf, hdesc⟩

theorem walk_mem_bwd (o : Option DescribeOptions) :
    ∀ {c : Command} {p : String} {node : Command} {q : String},
      VisiblePath c p node q → visibleSubcommands node = [] →
      extractCommand node (if q = "" then "_root" else q)
        (annFor o (if q = "" then "_root" else q)) ∈ walkCommands c p o := by
  intro c p node q h
  induction h with
  | here c p =>
    intro hleaf
    rw [walkCommands_eq]
    simp [hleaf]
  | @child c' p' s' d' q' hs hrest ih =>
    intro hleaf
    rw [walkCommands_eq]
    have hne : (visibleSubcommands c').isEmpty = false := by
      cases hvv : visibleSubcommands c'
      · rw [hvv] at hs; cases hs
      · simp [hvv]
    rw [hne]
    simp only [Bool.false_eq_true, if_false, List.mem_flatMap]
    exact ⟨s', hs, ih hleaf⟩

theorem flagDesc_name (ann : Option CommandAnnot) (f : FlagData) :
    (flagDesc ann f).name = "--" ++ f.name := by
  simp only [flagDesc]
  repeat' split
  all_goals rfl

theorem flagDesc_type (ann : Option CommandAnnot) (f : FlagData) :
    (flagDesc ann f).type =
      match lookupAnn f.annotations "values" with
      | some vs => if vs.isEmpty then baseType ann f else "enum"
      | none => baseType ann f := by
  simp only [flagDesc, baseType]
  repeat' split
  all_goals rfl

theorem flagDesc_values (ann : Option CommandAnnot) (f : FlagData) :
    (flagDesc ann f).values =
      match lookupAnn f.annotations "values" with
      | some vs => if vs.isEmpty then [] else vs
      | none => [] := by
  simp only [flagDesc]
  repeat' split
  all_goals rfl

theorem pflagTypeToMTP_ne_enum (f : FlagData) : pflagTypeToMTP f ≠ "enum" := by
  unfold pflagTypeToMTP
  split <;> decide

theorem extractCommand_args_some (c : Command) (nm : String) (a : CommandAnnot) :
    (extractCommand c nm (some a)).args =
      (if a.args.length > 0 then a.args else parseUseArgs c.use) ++ extractFlags c (some a) :=
  rfl

theorem extractCommand_args_none (c : Command) (nm : String) :
    (extractCommand c nm none).args = parseUseArgs c.use ++ extractFlags c none :=
  rfl

theorem parseUseArgs_foldl_type (l : List String) :
    ∀ acc : List ArgDescriptor, (∀ a ∈ acc, a.type = "string") →
      ∀ a ∈ l.foldl
        (fun acc part =>
          if goHasPrefix part "<" && goHasSuffix part ">" then
            acc ++ [{ name := goTrim part ['<', '>'], type := "string", required := true }]
          else if goHasPrefix part "[" && goHasSuffix part "]" then
            acc ++ [{ name := goTrim part ['[', ']'], type := "string" }]
          else acc) acc, a.type = "string" := by
  induction l with
  | nil => intro acc hacc; simpa using hacc
  | cons part rest ih =>
    intro acc hacc
    rw [List.foldl_cons]
    apply ih
    intro a ha
    by_cases h1 : (goHasPrefix part "<" && goHasSuffix part ">") = true
    · rw [if_pos h1] at ha
      rcases List.mem_append.mp ha with h | h
      · exact hacc a h
      · simp only [List.mem_singleton] at h
        subst h
        rfl
    · rw [if_neg h1] at ha
      by_cases h2 : (goHasPrefix part "[" && goHasSuffix part "]") = true
      · rw [if_pos h2] at ha
        rcases List.mem_append.mp ha with h | h
        · exact hacc a h
        · simp only [List.mem_singleton] at h
          subst h
          rfl
      · rw [if_neg h2] at ha
        exact hacc a ha

/-- Every positional descriptor inferred from a Use string has type
`string`. -/
theorem parseUseArgs_type (u : String) : ∀ a ∈ parseUseArgs u, a.type = "string" := by
  simp only [parseUseArgs]
  by_cases h : (goFields u).length ≤ 1
  · simp [h]
  · rw [if_neg h]
    exact parseUseArgs_foldl_type _ [] (by simp)

theorem baseType_ne_enum (ann : Option CommandAnnot) (f : FlagData)
    (hTypes : ∀ A, ann = some A → ∀ k, lookupStr A.argTypes k ≠ some "enum") :
    baseType ann f ≠ "enum" := by
  cases ann with
  | none => exact pflagTypeToMTP_ne_enum f
  | some A =>
    show (match lookupStr A.argTypes f.name with
          | some override => override
          | none => pflagTypeToMTP f) ≠ "enum"
    cases hov : lookupStr A.argTypes f.name with
    | none => exact pflagTypeToMTP_ne_enum f
    | some o =>
      intro hcontr
      have ho : o = "enum" := hcontr
      exact hTypes A rfl f.name (by rw [hov, ho])

theorem flagDesc_type_of_base {f : FlagData} (ann : Option CommandAnnot)
    (h : lookupAnn f.annotations "values" = none) :
    (flagDesc ann f).type = baseType ann f := by
  rw [flagDesc_type, h]

theorem flagDesc_type_of_empty {f : FlagData} {vs : List String} (ann : Option CommandAnnot)
    (h : lookupAnn f.annotations "values" = some vs) (he : vs.isEmpty = true) :
    (flagDesc ann f).type = baseType ann f := by
  rw [flagDesc_type, h]
  simp [he]

theorem flagDesc_type_of_vals {f : FlagData} {vs : List String} (ann : Option CommandAnnot)
    (h : lookupAnn f.annotations "values" = some vs) (he : vs.isEmpty = false) :
    (flagDesc ann f).type = "enum" := by
  rw [flagDesc_type, h]
  simp [he]

theorem flagDesc_values_of_vals {f : FlagData} {vs : List String} (ann : Option CommandAnnot)
    (h : lookupAnn f.annotations "values" = some vs) (he : vs.isEmpty = false) :
    (flagDesc ann f).values = vs := by
  rw [flagDesc_values, h]
  simp [he]

/-- If an extracted flag descriptor has type `enum` and no `ArgTypes`
override supplies `enum`, its value list is non-empty. -/
theorem flagDesc_enum_values_ne (ann : Option CommandAnnot)
    (hTypes : ∀ A, ann = some A → ∀ k, lookupStr A.argTypes k ≠ some "enum")
    (f : FlagData) (htype : (flagDesc ann f).type = "enum") :
    (flagDesc ann f).values ≠ [] := by
  cases hlook : lookupAnn f.annotations "values" with
  | none =>
    rw [flagDesc_type_of_base ann hlook] at htype
    exact absurd htype (baseType_ne_enum ann f hTypes)
  | some vs =>
    by_cases hemp : vs.isEmpty = true
    · rw [flagDesc_type_of_empty ann hlook hemp] at htype
      exact absurd htype (baseType_ne_enum ann f hTypes)
    · have hemp2 : vs.isEmpty = false := by
        cases hx : vs.isEmpty
        · rfl
        · exact absurd hx hemp
      rw [flagDesc_values_of_vals ann hlook hemp2]
      intro hnil
      subst hnil
      simp at hemp2

theorem lookupAnn_setAnn (a : AnnMap) (k : String) (v : List String) :
    lookupAnn (setAnn a k v) k = some v := by
  induction a with
  | nil => simp [setAnn, lookupAnn]
  | cons kv rest ih =>
    obtain ⟨k0, v0⟩ := kv
    by_cases h : k0 = k
    · simp [setAnn, h, lookupAnn]
    · simp [setAnn, h, lookupAnn, ih]

theorem lookupFlag_mem : ∀ (l : List FlagData) (n : String) (f : FlagData),
    lookupFlag l n = some f → f ∈ l := by
  intro l
  induction l with
  | nil => intro n f h; cases h
  | cons g rest ih =>
    intro n f h
    simp only [lookupFlag] at h
    by_cases hg : g.name = n
    · rw [if_pos hg] at h
      cases h
      exact List.mem_cons_self _ _
    · rw [if_neg hg] at h
      exact List.mem_cons_of_mem _ (ih n f h)

theorem lookupFlag_setFlagValues :
    ∀ (l : List FlagData) (n : String) (vs : List String) (f : FlagData),
      lookupFlag (setFlagValues l n vs) n = some f →
      lookupAnn f.annotations "values" = some vs := by
  intro l
  induction l with
  | nil => intro n vs f h; cases h
  | cons g rest ih =>
    intro n vs f h
    simp only [setFlagValues] at h
    by_cases hg : g.name = n
    · rw [if_pos hg] at h
      simp only [lookupFlag] at h
      rw [if_pos (show ({ g with annotations := setAnn g.annotations "values" vs } :
        FlagData).name = n from hg)] at h
      cases h
      exact lookupAnn_setAnn g.annotations "values" vs
    · rw [if_neg hg] at h
      simp only [lookupFlag] at h
      rw [if_neg hg] at h
      exact ih n vs f h

theorem withFlags_flags (c : Command) (l : List FlagData) : (c.withFlags l).flags = l := by
  cases c; rfl

theorem withSubs_subs (c : Command) (l : List Command) : (c.withSubs l).subs = l := by
  cases c; rfl

theorem extractCommand_withSubs (c : Command) (l : List Command) (nm : String)
    (ann : Option CommandAnnot) :
    extractCommand (c.withSubs l) nm ann = extractCommand c nm ann := by
  cases c; rfl

/-! ### Claim theorems -/

/-- C1: a descriptor is emitted by `walkCommands` exactly for the nodes
reachable through visible children whose own visible-child set is empty; the
descriptor is the one `extractCommand` builds for the accumulated
space-joined path, named by that path (or the sentinel `_root` when the path
is empty).  In particular a node with at least one visible child never
produces a descriptor of its own. -/
theorem walk_emits_exactly_visible_leaves (c : Command) (p : String)
    (o : Option DescribeOptions) (d : CommandDescriptor) :
    d ∈ walkCommands c p o ↔
      ∃ node q, VisiblePath c p node q ∧ visibleSubcommands node = [] ∧
        d = extractCommand node (if q = "" then "_root" else q)
              (annFor o (if q = "" then "_root" else q)) ∧
        d.name = (if q = "" then "_root" else q) := by
  constructor
  · intro hd
    obtain ⟨node, q, hpath, hleaf, hdesc⟩ := walk_mem_fwd (sizeOf c) c le_rfl p o d hd
    exact ⟨node, q, hpath, hleaf, hdesc, by rw [hdesc]; rfl⟩
  · rintro ⟨node, q, hpath, hleaf, rfl, -⟩
    exact walk_mem_bwd o hpath hleaf

/-- C2: the args list of an extracted command descriptor is the positional
descriptors (the annotation's list when non-empty, else those parsed from
the Use string) followed by the descriptors of the visible flags in
declaration order. -/
theorem args_positional_then_flags (c : Command) (nm : String)
    (ann : Option CommandAnnot) :
    (extractCommand c nm ann).args =
      (match ann with
        | some a => if a.args.length > 0 then a.args else parseUseArgs c.use
        | none => parseUseArgs c.use) ++
      (c.flags.filter keepFlag).map (flagDesc ann) := by
  cases ann with
  | none => rw [extractCommand_args_none, extractFlags_eq]
  | some A => rw [extractCommand_args_some, extractFlags_eq]

/-- C3: the inferred type tag is `boolean` for the boolean kind, `integer`
for every signed or unsigned integer width, `number` for the float widths,
`array` for the slice/array kinds, and `string` for every other kind. -/
theorem pflag_type_tags (f : FlagData) :
    (f.valueType = "bool" → pflagTypeToMTP f = "boolean") ∧
    (isIntKind f.valueType = true → pflagTypeToMTP f = "integer") ∧
    (isFloatKind f.valueType = true → pflagTypeToMTP f = "number") ∧
    (isSliceKind f.valueType = true → pflagTypeToMTP f = "array") ∧
    (f.valueType ≠ "bool" → isIntKind f.valueType = false →
      isFloatKind f.valueType = false → isSliceKind f.valueType = false →
      pflagTypeToMTP f = "string") := by
  refine ⟨?_, ?_, ?_, ?_, ?_⟩
  · intro h
    unfold pflagTypeToMTP
    split <;> simp_all
  · intro h
    unfold pflagTypeToMTP
    split <;> simp_all [isIntKind]
  · intro h
    unfold pflagTypeToMTP
    split <;> simp_all [isFloatKind]
  · intro h
    unfold pflagTypeToMTP
    split <;> simp_all [isSliceKind]
  · intro h1 h2 h3 h4
    unfold pflagTypeToMTP
    split <;> simp_all [isIntKind, isFloatKind, isSliceKind]

/-- Witness for C3 at concrete flags of each kind. -/
theorem pflag_type_tags_w :
    pflagTypeToMTP fBoolTrueW = "boolean" ∧ pflagTypeToMTP fIntW = "integer" ∧
    pflagTypeToMTP fFloatW = "number" ∧ pflagTypeToMTP fSliceW = "array" ∧
    pflagTypeToMTP fOtherW = "string" :=
  ⟨(pflag_type_tags fBoolTrueW).1 (by decide),
   (pflag_type_tags fIntW).2.1 (by decide),
   (pflag_type_tags fFloatW).2.2.1 (by decide),
   (pflag_type_tags fSliceW).2.2.2.1 (by decide),
   (pflag_type_tags fOtherW).2.2.2.2 (by decide) (by decide) (by decide) (by decide)⟩

/-- C4 counterexample: with an `ArgTypes` override that assigns type `enum`
to flag `mode`, the emitted descriptor has type `enum` and an empty value
list, so the claimed invariant fails as stated. -/
theorem enum_empty_values_cex :
    ¬ ∀ a ∈ (extractCommand cBad "serve" (some annBad)).args,
        a.type = "enum" → a.values ≠ [] := by
  decide

/-- C4 (amended): every emitted descriptor of type `enum` carries a
non-empty value list, provided no `ArgTypes` override assigns `enum` and
every annotation-supplied positional descriptor of type `enum` carries a
non-empty value list; in particular the `enum` type produced by the
flag-values annotation always comes with the attached non-empty list. -/
theorem enum_implies_values_nonempty (c : Command) (nm : String)
    (ann : Option CommandAnnot)
    (hTypes : ∀ A, ann = some A → ∀ k, lookupStr A.argTypes k ≠ some "enum")
    (hArgs : ∀ A, ann = some A → ∀ a ∈ A.args, a.type = "enum" → a.values ≠ []) :
    ∀ a ∈ (extractCommand c nm ann).args, a.type = "enum" → a.values ≠ [] := by
  intro a ha htype
  cases ann with
  | none =>
    rw [extractCommand_args_none] at ha
    rcases List.mem_append.mp ha with hpos | hflag
    · have hs := parseUseArgs_type c.use a hpos
      rw [hs] at htype
      exact absurd htype (by decide)
    · rw [extractFlags_eq] at hflag
      obtain ⟨f, hf, rfl⟩ := List.mem_map.mp hflag
      exact flagDesc_enum_values_ne none (fun A hA => by cases hA) f htype
  | some A =>
    rw [extractCommand_args_some] at ha
    rcases List.mem_append.mp ha with hpos | hflag
    · by_cases hlen : A.args.length > 0
      · rw [if_pos hlen] at hpos
        exact hArgs A rfl a hpos htype
      · rw [if_neg hlen] at hpos
        have hs := parseUseArgs_type c.use a hpos
        rw [hs] at htype
        exact absurd htype (by decide)
    · rw [extractFlags_eq] at hflag
      obtain ⟨f, hf, rfl⟩ := List.mem_map.mp hflag
      exact flagDesc_enum_values_ne (some A) hTypes f htype

/-- Witness for the amended C4: the enum descriptor produced for the
values-annotated flag of `cGoodEnum` has a non-empty value list. -/
theorem enum_implies_values_nonempty_w :
    (flagDesc none fEnumW).values ≠ [] :=
  enum_implies_values_nonempty cGoodEnum "convert" none
    (fun A hA => by cases hA) (fun A hA => by cases hA)
    (flagDesc none fEnumW) (by decide) (by decide)

/-- C5: a boolean default is emitted (as `true`) exactly when the textual
default is `"true"`; a numeric default is suppressed exactly when its text
is empty or `"0"`; any other kind's default is suppressed exactly when its
text is empty or `"[]"`; otherwise the textual default itself is emitted. -/
theorem flag_default_policy (f : FlagData) :
    (f.valueType = "bool" →
      ((flagDefault f = some (.boolVal true)) ↔ f.defValue = "true") ∧
      (f.defValue ≠ "true" → flagDefault f = none)) ∧
    ((isIntKind f.valueType = true ∨ isFloatKind f.valueType = true) →
      ((flagDefault f = none ↔ (f.defValue = "" ∨ f.defValue = "0")) ∧
       ((f.defValue ≠ "" ∧ f.defValue ≠ "0") →
          flagDefault f = some (.strVal f.defValue)))) ∧
    ((f.valueType ≠ "bool" ∧ isIntKind f.valueType = false ∧
        isFloatKind f.valueType = false) →
      ((flagDefault f = none ↔ (f.defValue = "" ∨ f.defValue = "[]")) ∧
       ((f.defValue ≠ "" ∧ f.defValue ≠ "[]") →
          flagDefault f = some (.strVal f.defValue)))) := by
  refine ⟨?_, ?_, ?_⟩
  · intro h
    have hb : flagDefault f
        = if f.defValue = "true" then some (.boolVal true) else none := by
      unfold flagDefault
      split <;> simp_all
    constructor
    · rw [hb]
      by_cases hd : f.defValue = "true" <;> simp [hd]
    · intro hne
      rw [hb, if_neg hne]
  · intro h
    have hb : flagDefault f = if f.defValue = "" ∨ f.defValue = "0" then none
        else some (.strVal f.defValue) := by
      unfold flagDefault
      split <;> first
        | rfl
        | simp_all [isIntKind, isFloatKind]
    constructor
    · rw [hb]
      by_cases hd : f.defValue = "" ∨ f.defValue = "0" <;> simp [hd]
    · rintro ⟨h1, h2⟩
      rw [hb, if_neg (by tauto)]
  · rintro ⟨h1, h2, h3⟩
    have hb : flagDefault f = if f.defValue = "" ∨ f.defValue = "[]" then none
        else some (.strVal f.defValue) := by
      unfold flagDefault
      split <;> first
        | rfl
        | simp_all [isIntKind, isFloatKind]
    constructor
    · rw [hb]
      by_cases hd : f.defValue = "" ∨ f.defValue = "[]" <;> simp [hd]
    · rintro ⟨h4, h5⟩
      rw [hb, if_neg (by tauto)]

/-- Witness for C5 at concrete flags of each kind and default shape. -/
theorem flag_default_policy_w :
    flagDefault fBoolTrueW = some (.boolVal true) ∧ flagDefault fBoolFalseW = none ∧
    flagDefault fIntZeroW = none ∧ flagDefault fIntW = some (.strVal "8080") ∧
    flagDefault fSliceW = none :=
  ⟨((flag_default_policy fBoolTrueW).1 (by decide)).1.mpr (by decide),
   ((flag_default_policy fBoolFalseW).1 (by decide)).2 (by decide),
   ((flag_default_policy fIntZeroW).2.1 (Or.inl (by decide))).1.mpr (Or.inr (by decide)),
   ((flag_default_policy fIntW).2.1 (Or.inl (by decide))).2 ⟨by decide, by decide⟩,
   ((flag_default_policy fSliceW).2.2 ⟨by decide, by decide, by decide⟩).1.mpr
     (Or.inr (by decide))⟩

/-- C6 counterexample: the walker never checks the root's own `Hidden`
field, so a hidden root command still contributes a descriptor. -/
theorem hidden_root_emits_descriptor :
    cHiddenRoot.hidden = true ∧ (Describe cHiddenRoot none).commands ≠ [] := by
  refine ⟨rfl, ?_⟩
  show walkCommands cHiddenRoot "" none ≠ []
  rw [walkCommands_eq]
  simp [visibleSubcommands, cHiddenRoot, Command.subs]

/-- C6 (amended): deleting every hidden or reserved-named (`help`,
`completion`) subcommand together with its subtree, and every hidden or
reserved-named (`help`, `mtp-describe`, `version`) flag, anywhere below the
root, leaves the output schema unchanged — none of them ever contributes;
only the root node itself is exempt from the hidden/name checks. -/
theorem describe_prune_invariant (root : Command) (opts : Option DescribeOptions) :
    Describe (prune root) opts = Describe root opts := by
  unfold Describe
  rw [walk_prune, prune_short, prune_long, prune_name, prune_version]

/-- C7: positional args come from the annotation exactly when it supplies a
non-empty list (else from the Use string); flags come solely from
auto-extraction, whose descriptor names do not depend on the annotation;
stdin, stdout, examples and auth are copied from the annotation when one is
present and are absent when none is. -/
theorem annotation_merge (c : Command) (nm : String) (A : CommandAnnot) :
    ((extractCommand c nm (some A)).args =
        (if A.args.length > 0 then A.args else parseUseArgs c.use)
          ++ extractFlags c (some A)) ∧
    (extractCommand c nm (some A)).stdin = A.stdin ∧
    (extractCommand c nm (some A)).stdout = A.stdout ∧
    (extractCommand c nm (some A)).examples = A.examples ∧
    (extractCommand c nm (some A)).auth = A.auth ∧
    ((extractCommand c nm none).args = parseUseArgs c.use ++ extractFlags c none) ∧
    (extractCommand c nm none).stdin = none ∧
    (extractCommand c nm none).stdout = none ∧
    (extractCommand c nm none).examples = [] ∧
    (extractCommand c nm none).auth = none ∧
    (extractFlags c (some A)).map ArgDescriptor.name
      = (extractFlags c none).map ArgDescriptor.name := by
  refine ⟨rfl, rfl, rfl, rfl, rfl, rfl, rfl, rfl, rfl, rfl, ?_⟩
  rw [extractFlags_eq, extractFlags_eq, List.map_map, List.map_map]
  apply List.map_congr_left
  intro f _
  simp [Function.comp_apply, flagDesc_name]

/-- C8: after `EnumValues` attaches a non-empty value list to an existing
flag, the flag's descriptor has type `enum` and exactly that value list —
regardless of the inferred tag or any `ArgTypes` override — and (when the
flag is visible) that descriptor is among the extracted flags. -/
theorem enum_values_forces_enum (c : Command) (fn : String) (vs : List String)
    (ann : Option CommandAnnot) (f : FlagData)
    (hvs : vs ≠ [])
    (hf : lookupFlag (EnumValues c fn vs).flags fn = some f)
    (hkeep : keepFlag f = true) :
    (flagDesc ann f).type = "enum" ∧ (flagDesc ann f).values = vs ∧
      flagDesc ann f ∈ extractFlags (EnumValues c fn vs) ann := by
  cases hl : lookupFlag c.flags fn with
  | none =>
    have hE : EnumValues c fn vs = c := by
      unfold EnumValues
      rw [hl]
    rw [hE] at hf
    rw [hl] at hf
    cases hf
  | some g =>
    have hE : EnumValues c fn vs = c.withFlags (setFlagValues c.flags fn vs) := by
      unfold EnumValues
      rw [hl]
    have hfl : (EnumValues c fn vs).flags = setFlagValues c.flags fn vs := by
      rw [hE, withFlags_flags]
    rw [hfl] at hf
    have hlook := lookupFlag_setFlagValues c.flags fn vs f hf
    have hne : vs.isEmpty = false := by
      cases vs
      · exact absurd rfl hvs
      · rfl
    refine ⟨flagDesc_type_of_vals ann hlook hne, flagDesc_values_of_vals ann hlook hne, ?_⟩
    have hmem : f ∈ (EnumValues c fn vs).flags := by
      rw [hfl]
      exact lookupFlag_mem _ fn f hf
    rw [extractFlags_eq]
    exact List.mem_map_of_mem _ (List.mem_filter.mpr ⟨hmem, hkeep⟩)

/-- Witness for C8 on a concrete command and flag. -/
theorem enum_values_forces_enum_w :
    (flagDesc none fEnumW).type = "enum" ∧
    (flagDesc none fEnumW).values = ["json", "csv"] ∧
      flagDesc none fEnumW ∈ extractFlags (EnumValues cEnumCmd "format" ["json", "csv"]) none :=
  enum_values_forces_enum cEnumCmd "format" ["json", "csv"] none fEnumW
    (by decide) (by decide) (by decide)

/-- C9: calling `EnumValues` with a flag name the command does not declare
returns without signalling anything and leaves the command — including all
of its flags — unchanged. -/
theorem enum_values_missing_flag_noop (c : Command) (fn : String) (vs : List String)
    (h : lookupFlag c.flags fn = none) :
    EnumValues c fn vs = c := by
  unfold EnumValues
  rw [h]

/-- Witness for C9 on a concrete command. -/
theorem enum_values_missing_flag_noop_w :
    EnumValues cEnumCmd "nope" ["x"] = cEnumCmd :=
  enum_values_missing_flag_noop cEnumCmd "nope" ["x"] (by decide)

/-- C10: a subcommand named `help` or `completion` is excluded purely by
name: inserting an arbitrary user-defined command with such a name leaves
the walker's output unchanged. -/
theorem reserved_name_excluded_by_name (c sub : Command) (p : String)
    (o : Option DescribeOptions)
    (h : sub.name = "help" ∨ sub.name = "completion") :
    walkCommands (c.withSubs (sub :: c.subs)) p o = walkCommands c p o := by
  have hkeep : keepCmd sub = false := by
    rcases h with h | h <;> simp [keepCmd, skippedCommands, h]
  have hvis : visibleSubcommands (c.withSubs (sub :: c.subs)) = visibleSubcommands c := by
    rw [visible_eq_filter, visible_eq_filter, withSubs_subs, List.filter_cons, hkeep]
    simp
  rw [walkCommands_eq, walkCommands_eq, hvis, extractCommand_withSubs]

/-- Witness for C10: a runnable, non-hidden user-defined `help` subcommand
does not change the output. -/
theorem reserved_name_excluded_by_name_w :
    walkCommands (cBaseW.withSubs (subHelpW :: cBaseW.subs)) "" none
      = walkCommands cBaseW "" none :=
  reserved_name_excluded_by_name cBaseW subHelpW "" none (Or.inl (by decide))
